import Mathlib

/-!
Verification of the lexical scanner in `src/compiler/lexer.rs` and
`src/compiler/token.rs` of the `unnamed-language` repository.

The Rust scanner works over a `&str` (UTF-8 text) with a byte-offset
cursor `index`.  We embed the input as a `List Char` (the sequence of
Unicode scalar values) and keep the cursor as a byte offset, using
`Char.utf8Size` for the number of bytes each scalar value occupies,
exactly as Rust's `char::len_utf8` does.  `suffixAt s i` recovers the
sequence of scalar values starting at byte offset `i`, and is `none`
exactly when `i` is not on a scalar-value boundary of `s` or lies past
the end — the situations in which the Rust `self.string[self.index..]`
slice in `peek_char` would panic.
-/

namespace Unnamed

/-- `TokenKind` from `src/compiler/token.rs` (the full closed enumeration). -/
inductive TokenKind where
  | Invalid
  | End
  | WhiteSpace
  | LineBreak
  | Comment
  | Identifier
  | Struct
  | Union
  | Trait
  | Or
  | And
  | Colon
  | DoubleColon
  | Dot
  | ParenL
  | ParenR
  | SquareL
  | SquareR
  | CurlyL
  | CurlyR
  | At
  | Hashtag
  | Plus
  | DoublePlus
  | Equals
  | DoubleEquals
  | ThinArrow
  | ThickArrow
  | Comma
  | Minus
  | Times
  | Div
  | String
  | Char
  | Int
  | Float
  deriving DecidableEq

/-- `Token` from `src/compiler/token.rs`; `endPos` is the field `end`
(`end` is a Lean keyword). Offsets are byte offsets into the source. -/
structure Token where
  kind : TokenKind
  start : Nat
  endPos : Nat
  deriving DecidableEq

/-- `Token::new`. -/
def Token.new (kind : TokenKind) (start endPos : Nat) : Token :=
  ⟨kind, start, endPos⟩

/-- The single-quote character (code 39), written via `Char.ofNat`. -/
def squote : Char := Char.ofNat 39

/-- The double-quote character (code 34), written via `Char.ofNat`. -/
def dquote : Char := Char.ofNat 34

/-- The opening curly brace character (code 123), written via `Char.ofNat`. -/
def curlyL : Char := Char.ofNat 123

/-- The closing curly brace character (code 125), written via `Char.ofNat`. -/
def curlyR : Char := Char.ofNat 125

/-- Byte length of a sequence of scalar values, as Rust's `str::len`. -/
def byteLen (s : List Char) : Nat :=
  (s.map Char.utf8Size).sum

/-- The suffix of `s` beginning at byte offset `i`: `some` of the remaining
scalar values when `i` is on a scalar-value boundary with `i ≤ byteLen s`,
`none` otherwise (the case in which Rust's slice `&s[i..]` panics). -/
def suffixAt : List Char → Nat → Option (List Char)
  | s, 0 => some s
  | [], _ + 1 => none
  | c :: rest, i + 1 =>
    if c.utf8Size ≤ i + 1 then suffixAt rest (i + 1 - c.utf8Size) else none

/-- The Rust range pattern `' ' | '\r' | '\t'` used for whitespace. -/
def isWhiteChar (c : Char) : Bool :=
  c = ' ' || c = '\r' || c = '\t'

/-- The Rust range pattern `'0'..='9'`. -/
def isDigitChar (c : Char) : Bool :=
  '0' ≤ c && c ≤ '9'

/-- The Rust range pattern `'A'..='Z' | 'a'..='z' | '_'`. -/
def isWordChar (c : Char) : Bool :=
  ('A' ≤ c && c ≤ 'Z') || ('a' ≤ c && c ≤ 'z') || c = '_'

/-- The loop of `Lexer::from_whitespace`: starting from suffix `r` at byte
offset `i`, consume whitespace characters and return the final offset. -/
def whitespaceEnd : List Char → Nat → Nat
  | [], i => i
  | c :: rest, i =>
    if isWhiteChar c then whitespaceEnd rest (i + c.utf8Size) else i

/-- `Lexer::from_whitespace`, entered with the whole current suffix `r`
(the Rust method does not pre-consume the first character). -/
def fromWhitespace (r : List Char) (i : Nat) : Token :=
  Token.new .WhiteSpace i (whitespaceEnd r i)

/-- `Lexer::from_dash`: `r` is the suffix after the `-` at offset `i`
(the Rust method consumes the one-byte `-` before peeking, so its peek
is `r.head?`). -/
def fromDash (r : List Char) (i : Nat) : Token :=
  if r.head? = some '>' then Token.new .ThinArrow i (i + 1 + 1)
  else Token.new .Minus i (i + 1)

/-- `Lexer::from_equals`: `r` is the suffix after the `=` at offset `i`. -/
def fromEquals (r : List Char) (i : Nat) : Token :=
  if r.head? = some '>' then Token.new .ThickArrow i (i + 1 + 1)
  else if r.head? = some '=' then Token.new .DoubleEquals i (i + 1 + 1)
  else Token.new .Equals i (i + 1)

/-- `Lexer::from_plus`: `r` is the suffix after the `+` at offset `i`. -/
def fromPlus (r : List Char) (i : Nat) : Token :=
  if r.head? = some '+' then Token.new .DoublePlus i (i + 1 + 1)
  else Token.new .Plus i (i + 1)

/-- `Lexer::from_colon`: `r` is the suffix after the `:` at offset `i`. -/
def fromColon (r : List Char) (i : Nat) : Token :=
  if r.head? = some ':' then Token.new .DoubleColon i (i + 1 + 1)
  else Token.new .Colon i (i + 1)

/-- The loop of the `//` arm of `Lexer::from_slash`: advance until a
newline or end of input, returning the final offset (newline excluded). -/
def lineCommentEnd : List Char → Nat → Nat
  | [], i => i
  | c :: rest, i =>
    if c = '\n' then i else lineCommentEnd rest (i + c.utf8Size)

/-- The loop of the `/*` arm of `Lexer::from_slash`: scan for the first
`*/`; `some e` is the offset just past the closing `/` (the Rust code
breaks after consuming the `*`, peeking the `/`, then consumes the
one-byte `/`); `none` models the `return self.invalid(start)` on
end of input. -/
def blockCommentEnd : List Char → Nat → Option Nat
  | [], _ => none
  | c :: rest, i =>
    if c = '*' && rest.head? = some '/' then some (i + c.utf8Size + 1)
    else blockCommentEnd rest (i + c.utf8Size)

/-- `Lexer::from_slash`: `r` is the suffix after the one-byte `/` at
offset `i` (so the Rust peek after consuming the `/` is `r.head?`);
`len` is the byte length of the whole source (used by `Lexer::invalid`). -/
def fromSlash (r : List Char) (i len : Nat) : Token :=
  if r.head? = some '/' then Token.new .Comment i (lineCommentEnd r.tail (i + 1 + 1))
  else if r.head? = some '*' then
    match blockCommentEnd r.tail (i + 1 + 1) with
    | some e => Token.new .Comment i e
    | none => Token.new .Invalid i len
  else Token.new .Div i (i + 1)

/-- `Lexer::from_single_quote`: `r` is the suffix after the one-byte
opening quote at offset `i`; `len` as in `Lexer::invalid`. -/
def fromSingleQuote (r : List Char) (i len : Nat) : Token :=
  match r with
  | [] => Token.new .Invalid i len
  | c :: r2 =>
    if c = squote then Token.new .Invalid i len
    else if r2.head? = some squote then Token.new .Char i (i + 1 + c.utf8Size + 1)
    else Token.new .Invalid i len

/-- The loop of `Lexer::from_quote`: scan for the closing `"`; `some e`
is the offset just past it (the Rust loop breaks without consuming and
the token end is `self.index + 1`); `none` models the unterminated case. -/
def stringEnd : List Char → Nat → Option Nat
  | [], _ => none
  | c :: rest, i =>
    if c = dquote then some (i + 1) else stringEnd rest (i + c.utf8Size)

/-- `Lexer::from_quote`: `r` is the suffix after the one-byte opening
quote at offset `i`. -/
def fromQuote (r : List Char) (i len : Nat) : Token :=
  match stringEnd r (i + 1) with
  | some e => Token.new .String i e
  | none => Token.new .Invalid i len

/-- Result of the loop in `Lexer::from_digit`: either the early
`return self.invalid(start)` on a second `.`, or the final offset
together with `dot_index` (`some j` records `self.index` right after
consuming the one `.`). -/
inductive DigitScan where
  | invalid
  | ok (e : Nat) (dot : Option Nat)
  deriving DecidableEq

/-- The loop of `Lexer::from_digit` over the suffix `r` at offset `i`
with current `dot_index` `d`. -/
def digitLoop : List Char → Nat → Option Nat → DigitScan
  | [], i, d => .ok i d
  | c :: rest, i, d =>
    if isDigitChar c || c = '_' then digitLoop rest (i + c.utf8Size) d
    else if c = '.' then
      match d with
      | some _ => .invalid
      | none => digitLoop rest (i + 1) (some (i + 1))
    else .ok i d

/-- `Lexer::from_digit`: `r` is the suffix after the first (one-byte)
digit at offset `start`. -/
def fromDigit (r : List Char) (start len : Nat) : Token :=
  match digitLoop r (start + 1) none with
  | .invalid => Token.new .Invalid start len
  | .ok e d =>
    match d with
    | some j =>
      if j = e then Token.new .Invalid start len
      else Token.new .Float start e
    | none => Token.new .Int start e

/-- The loop of `Lexer::from_letter`: the maximal word-character prefix
of the suffix (the scanned lexeme). -/
def takeWord : List Char → List Char
  | [] => []
  | c :: rest => if isWordChar c then c :: takeWord rest else []

/-- The keyword table of `Lexer::from_letter`. -/
def keywordKind (w : List Char) : TokenKind :=
  if w = "struct".toList then .Struct
  else if w = "union".toList then .Union
  else if w = "trait".toList then .Trait
  else if w = "or".toList then .Or
  else if w = "and".toList then .And
  else .Identifier

/-- `Lexer::from_letter`, entered with the whole current suffix `r`
(the Rust method does not pre-consume the first character). -/
def fromLetter (r : List Char) (i : Nat) : Token :=
  let w := takeWord r
  Token.new (keywordKind w) i (i + byteLen w)

/-- The dispatch `match peek` of `Lexer::next`, given the peeked
character `c`, the suffix `r` after it, its byte offset `i`, and the
byte length `len` of the whole source.  The tested conditions are
pairwise disjoint, so the if-chain order is immaterial; it follows the
order of the Rust match arms. -/
def dispatch (c : Char) (r : List Char) (i len : Nat) : Token :=
  if c = '\n' then Token.new .LineBreak i (i + 1)
  else if c = '@' then Token.new .At i (i + 1)
  else if c = ',' then Token.new .Comma i (i + 1)
  else if c = '*' then Token.new .Times i (i + 1)
  else if c = '(' then Token.new .ParenL i (i + 1)
  else if c = ')' then Token.new .ParenR i (i + 1)
  else if c = '[' then Token.new .SquareL i (i + 1)
  else if c = ']' then Token.new .SquareR i (i + 1)
  else if c = curlyL then Token.new .CurlyL i (i + 1)
  else if c = curlyR then Token.new .CurlyR i (i + 1)
  else if c = '.' then Token.new .Dot i (i + 1)
  else if isWhiteChar c then fromWhitespace (c :: r) i
  else if c = '-' then fromDash r i
  else if c = '=' then fromEquals r i
  else if c = '+' then fromPlus r i
  else if c = '/' then fromSlash r i len
  else if c = squote then fromSingleQuote r i len
  else if c = dquote then fromQuote r i len
  else if c = ':' then fromColon r i
  else if isDigitChar c then fromDigit r i len
  else if isWordChar c then fromLetter (c :: r) i
  else Token.new .Invalid i len

/-- The `Lexer` struct: the borrowed source text and the byte cursor. -/
structure Lexer where
  string : List Char
  index : Nat
  deriving DecidableEq

/-- `Lexer::new`. -/
def Lexer.new (s : List Char) : Lexer :=
  ⟨s, 0⟩

/-- `Lexer::next`.  The `none` branch of the outer match corresponds to
the panic precondition of `peek_char` (cursor off a scalar-value
boundary); it is proved unreachable from `Lexer.new` below, so the value
returned there is immaterial.  In the `some []` branch the Rust code
returns `End` early without moving the cursor; otherwise the cursor is
set to `token.end`. -/
def Lexer.next (l : Lexer) : Token × Lexer :=
  match suffixAt l.string l.index with
  | none => (Token.new .End l.index l.index, l)
  | some [] => (Token.new .End l.index l.index, l)
  | some (c :: r) =>
    let t := dispatch c r l.index (byteLen l.string)
    (t, ⟨l.string, t.endPos⟩)

/-- The scanner state after `n` calls to `next` starting from
`Lexer.new s`. -/
def lexState (s : List Char) : Nat → Lexer
  | 0 => Lexer.new s
  | n + 1 => ((lexState s n).next).2

/-- The token returned by the `n + 1`-st call to `next` starting from
`Lexer.new s`. -/
def tokenAt (s : List Char) (n : Nat) : Token :=
  ((lexState s n).next).1

/-! ### Basic facts about byte lengths and boundary offsets -/

@[simp] theorem Token.new_kind (k : TokenKind) (a b : Nat) : (Token.new k a b).kind = k := rfl

@[simp] theorem Token.new_start (k : TokenKind) (a b : Nat) : (Token.new k a b).start = a := rfl

@[simp] theorem Token.new_endPos (k : TokenKind) (a b : Nat) : (Token.new k a b).endPos = b := rfl

@[simp] theorem byteLen_nil : byteLen [] = 0 := rfl

@[simp] theorem byteLen_cons (c : Char) (r : List Char) :
    byteLen (c :: r) = c.utf8Size + byteLen r := by
  simp [byteLen]

theorem byteLen_append (a b : List Char) :
    byteLen (a ++ b) = byteLen a + byteLen b := by
  induction a with
  | nil => simp
  | cons c a ih => simp [ih]; omega

theorem byteLen_eq_zero {r : List Char} (h : byteLen r = 0) : r = [] := by
  cases r with
  | nil => rfl
  | cons c rest => have := c.utf8Size_pos; simp at h; omega

/-- A scalar value with code at most 127 occupies one byte in UTF-8. -/
theorem utf8Size_one_of_ascii (c : Char) (h : c.val ≤ 127) : c.utf8Size = 1 := by
  have h2 : c.val ≤ UInt32.ofNatCore 0x7F (by decide) := UInt32.le_trans h (by decide)
  simp only [Char.utf8Size]
  rw [if_pos h2]

theorem utf8Size_one_of_digit (c : Char) (h : isDigitChar c = true) : c.utf8Size = 1 := by
  simp [isDigitChar] at h
  have hv : c.val ≤ 57 := h.2
  exact utf8Size_one_of_ascii c (UInt32.le_trans hv (by decide))

theorem utf8Size_one_of_word (c : Char) (h : isWordChar c = true) : c.utf8Size = 1 := by
  simp [isWordChar] at h
  rcases h with (⟨h1, h2⟩ | ⟨h1, h2⟩) | h1
  · exact utf8Size_one_of_ascii c (UInt32.le_trans (show c.val ≤ 90 from h2) (by decide))
  · exact utf8Size_one_of_ascii c (UInt32.le_trans (show c.val ≤ 122 from h2) (by decide))
  · subst h1; decide

@[simp] theorem suffixAt_zero (s : List Char) : suffixAt s 0 = some s := by
  cases s <;> rfl

theorem suffixAt_nil_succ (n : Nat) : suffixAt [] (n + 1) = none := rfl

theorem suffixAt_cons_succ (c : Char) (rest : List Char) (n : Nat) :
    suffixAt (c :: rest) (n + 1) =
      if c.utf8Size ≤ n + 1 then suffixAt rest (n + 1 - c.utf8Size) else none := rfl

/-- A boundary offset splits the byte length: `suffixAt s i = some r`
forces `i + byteLen r = byteLen s`. -/
theorem suffixAt_some_byteLen :
    ∀ (s : List Char) (i : Nat) (r : List Char),
      suffixAt s i = some r → i + byteLen r = byteLen s := by
  intro s
  induction s with
  | nil =>
    intro i r h
    cases i with
    | zero => rw [suffixAt_zero] at h; cases h; simp
    | succ n => rw [suffixAt_nil_succ] at h; cases h
  | cons c rest ih =>
    intro i r h
    cases i with
    | zero => rw [suffixAt_zero] at h; cases h; simp
    | succ n =>
      rw [suffixAt_cons_succ] at h
      by_cases hle : c.utf8Size ≤ n + 1
      · rw [if_pos hle] at h
        have h2 := ih _ _ h
        have hpos := c.utf8Size_pos
        rw [byteLen_cons]
        omega
      · rw [if_neg hle] at h; cases h

/-- Boundary offsets compose: a boundary of the suffix at a boundary is
a boundary of the whole input. -/
theorem suffixAt_trans :
    ∀ (s : List Char) (i j : Nat) (r r' : List Char),
      suffixAt s i = some r → suffixAt r j = some r' →
      suffixAt s (i + j) = some r' := by
  intro s
  induction s with
  | nil =>
    intro i j r r' h1 h2
    cases i with
    | zero => rw [suffixAt_zero] at h1; cases h1; simpa using h2
    | succ n => rw [suffixAt_nil_succ] at h1; cases h1
  | cons c rest ih =>
    intro i j r r' h1 h2
    cases i with
    | zero => rw [suffixAt_zero] at h1; cases h1; simpa using h2
    | succ n =>
      rw [suffixAt_cons_succ] at h1
      by_cases hle : c.utf8Size ≤ n + 1
      · rw [if_pos hle] at h1
        have h3 := ih _ _ _ _ h1 h2
        have hstep : n + 1 + j = (n + j) + 1 := by omega
        rw [hstep, suffixAt_cons_succ, if_pos (by omega)]
        have harith : n + j + 1 - c.utf8Size = (n + 1 - c.utf8Size) + j := by omega
        rw [harith]
        exact h3
      · rw [if_neg hle] at h1; cases h1

/-- Consuming the head character lands on the next boundary. -/
theorem suffixAt_utf8Size (c : Char) (rest : List Char) :
    suffixAt (c :: rest) c.utf8Size = some rest := by
  have hpos := c.utf8Size_pos
  obtain ⟨k, hk⟩ : ∃ k, c.utf8Size = k + 1 := ⟨c.utf8Size - 1, by omega⟩
  rw [hk, suffixAt_cons_succ, if_pos (by omega)]
  have h0 : k + 1 - c.utf8Size = 0 := by omega
  rw [h0, suffixAt_zero]

theorem suffixAt_cons_step (c : Char) (rest : List Char) (j : Nat) (r' : List Char)
    (h : suffixAt rest j = some r') :
    suffixAt (c :: rest) (c.utf8Size + j) = some r' :=
  suffixAt_trans _ _ _ _ _ (suffixAt_utf8Size c rest) h

theorem suffixAt_ascii_step (c : Char) (h1 : c.utf8Size = 1) (rest : List Char)
    (j : Nat) (r' : List Char) (h : suffixAt rest j = some r') :
    suffixAt (c :: rest) (j + 1) = some r' := by
  have h2 := suffixAt_cons_step c rest j r' h
  rw [h1, Nat.add_comm] at h2
  exact h2

/-- The offset one past the last byte is a boundary with empty suffix. -/
theorem suffixAt_byteLen (s : List Char) : suffixAt s (byteLen s) = some [] := by
  induction s with
  | nil => rw [byteLen_nil, suffixAt_zero]
  | cons c rest ih => rw [byteLen_cons]; exact suffixAt_cons_step c rest _ _ ih

/-- `e` is a scalar-value boundary reachable going forward from offset
`i`, where `r` is the suffix of the input at `i`. -/
def BoundaryFrom (r : List Char) (i e : Nat) : Prop :=
  ∃ j r', e = i + j ∧ suffixAt r j = some r'

theorem boundaryFrom_self (r : List Char) (i : Nat) : BoundaryFrom r i i :=
  ⟨0, r, by omega, suffixAt_zero r⟩

theorem boundaryFrom_cons (c : Char) (rest : List Char) (i e : Nat)
    (h : BoundaryFrom rest (i + c.utf8Size) e) : BoundaryFrom (c :: rest) i e := by
  obtain ⟨j, r', he, hs⟩ := h
  exact ⟨c.utf8Size + j, r', by omega, suffixAt_cons_step c rest j r' hs⟩

theorem boundaryFrom_ascii (c : Char) (h1 : c.utf8Size = 1) (rest : List Char) (i e : Nat)
    (h : BoundaryFrom rest (i + 1) e) : BoundaryFrom (c :: rest) i e := by
  apply boundaryFrom_cons
  rwa [h1]

theorem BoundaryFrom.le {r : List Char} {i e : Nat} (h : BoundaryFrom r i e) : i ≤ e := by
  obtain ⟨j, r', he, _⟩ := h
  omega

theorem boundaryFrom_one (c : Char) (h1 : c.utf8Size = 1) (r : List Char) (i : Nat) :
    BoundaryFrom (c :: r) i (i + 1) :=
  ⟨1, r, rfl, suffixAt_ascii_step c h1 r 0 r (suffixAt_zero r)⟩

theorem boundaryFrom_two (c d : Char) (hc : c.utf8Size = 1) (hd : d.utf8Size = 1)
    (r : List Char) (i : Nat) : BoundaryFrom (c :: d :: r) i (i + 1 + 1) :=
  ⟨2, r, by omega,
    suffixAt_ascii_step c hc (d :: r) 1 r (suffixAt_ascii_step d hd r 0 r (suffixAt_zero r))⟩

/-! ### Facts about the sub-scanner loops -/

theorem whitespaceEnd_boundary :
    ∀ (r : List Char) (i : Nat), BoundaryFrom r i (whitespaceEnd r i) := by
  intro r
  induction r with
  | nil => intro i; exact boundaryFrom_self [] i
  | cons c rest ih =>
    intro i
    by_cases hw : isWhiteChar c = true
    · rw [show whitespaceEnd (c :: rest) i = whitespaceEnd rest (i + c.utf8Size) from by
        simp [whitespaceEnd, hw]]
      exact boundaryFrom_cons _ _ _ _ (ih _)
    · rw [show whitespaceEnd (c :: rest) i = i from by simp [whitespaceEnd, hw]]
      exact boundaryFrom_self _ _

theorem whitespaceEnd_lt (c : Char) (rest : List Char) (i : Nat) (hw : isWhiteChar c = true) :
    i < whitespaceEnd (c :: rest) i := by
  have h1 : whitespaceEnd (c :: rest) i = whitespaceEnd rest (i + c.utf8Size) := by
    simp [whitespaceEnd, hw]
  have h2 := (whitespaceEnd_boundary rest (i + c.utf8Size)).le
  have h3 := c.utf8Size_pos
  omega

theorem lineCommentEnd_boundary :
    ∀ (r : List Char) (i : Nat), BoundaryFrom r i (lineCommentEnd r i) := by
  intro r
  induction r with
  | nil => intro i; exact boundaryFrom_self [] i
  | cons c rest ih =>
    intro i
    by_cases hn : c = '\n'
    · rw [show lineCommentEnd (c :: rest) i = i from by simp [lineCommentEnd, hn]]
      exact boundaryFrom_self _ _
    · rw [show lineCommentEnd (c :: rest) i = lineCommentEnd rest (i + c.utf8Size) from by
        simp [lineCommentEnd, hn]]
      exact boundaryFrom_cons _ _ _ _ (ih _)

theorem blockCommentEnd_spec :
    ∀ (r : List Char) (i e : Nat), blockCommentEnd r i = some e →
      i ≤ e ∧ BoundaryFrom r i e := by
  intro r
  induction r with
  | nil => intro i e h; simp [blockCommentEnd] at h
  | cons c rest ih =>
    intro i e h
    by_cases hb : (c = '*' ∧ rest.head? = some '/')
    · obtain ⟨hc, hh⟩ := hb
      subst hc
      rcases rest with _ | ⟨d, rest2⟩
      · simp at hh
      · simp at hh
        subst hh
        rw [show blockCommentEnd ('*' :: '/' :: rest2) i = some (i + 1 + 1) from by
          simp [blockCommentEnd]; decide] at h
        cases h
        constructor
        · omega
        · exact boundaryFrom_two '*' '/' (by decide) (by decide) rest2 i
    · rw [show blockCommentEnd (c :: rest) i = blockCommentEnd rest (i + c.utf8Size) from by
        simp [blockCommentEnd]
        intro h1 h2
        exact absurd ⟨h1, h2⟩ hb] at h
      obtain ⟨hle, hbd⟩ := ih _ _ h
      have := c.utf8Size_pos
      exact ⟨by omega, boundaryFrom_cons _ _ _ _ hbd⟩

theorem stringEnd_spec :
    ∀ (r : List Char) (i e : Nat), stringEnd r i = some e →
      i < e ∧ BoundaryFrom r i e := by
  intro r
  induction r with
  | nil => intro i e h; simp [stringEnd] at h
  | cons c rest ih =>
    intro i e h
    by_cases hq : c = dquote
    · rw [show stringEnd (c :: rest) i = some (i + 1) from by simp [stringEnd, hq]] at h
      cases h
      subst hq
      exact ⟨by omega, boundaryFrom_one dquote (by decide) rest i⟩
    · rw [show stringEnd (c :: rest) i = stringEnd rest (i + c.utf8Size) from by
        simp [stringEnd, hq]] at h
      obtain ⟨hlt, hbd⟩ := ih _ _ h
      have := c.utf8Size_pos
      exact ⟨by omega, boundaryFrom_cons _ _ _ _ hbd⟩

theorem digitLoop_spec :
    ∀ (r : List Char) (i : Nat) (d : Option Nat) (e : Nat) (d2 : Option Nat),
      digitLoop r i d = .ok e d2 → i ≤ e ∧ BoundaryFrom r i e := by
  intro r
  induction r with
  | nil =>
    intro i d e d2 h
    simp [digitLoop] at h
    obtain ⟨he, _⟩ := h
    subst he
    exact ⟨le_refl _, boundaryFrom_self _ _⟩
  | cons c rest ih =>
    intro i d e d2 h
    by_cases h1 : (isDigitChar c || c = '_') = true
    · rw [show digitLoop (c :: rest) i d = digitLoop rest (i + c.utf8Size) d from by
        simp [digitLoop, h1]] at h
      obtain ⟨hle, hbd⟩ := ih _ _ _ _ h
      have := c.utf8Size_pos
      exact ⟨by omega, boundaryFrom_cons _ _ _ _ hbd⟩
    · by_cases h2 : c = '.'
      · subst h2
        cases d with
        | some j =>
          rw [show digitLoop ('.' :: rest) i (some j) = .invalid from by
            simp [digitLoop, isDigitChar]] at h
          cases h
        | none =>
          rw [show digitLoop ('.' :: rest) i none = digitLoop rest (i + 1) (some (i + 1)) from by
            simp [digitLoop, isDigitChar]] at h
          obtain ⟨hle, hbd⟩ := ih _ _ _ _ h
          exact ⟨by omega, boundaryFrom_ascii '.' (by decide) rest i e hbd⟩
      · rw [show digitLoop (c :: rest) i d = .ok i d from by simp [digitLoop, h1, h2]] at h
        simp at h
        obtain ⟨he, _⟩ := h
        subst he
        exact ⟨le_refl _, boundaryFrom_self _ _⟩

theorem takeWord_boundary :
    ∀ (r : List Char) (i : Nat), BoundaryFrom r i (i + byteLen (takeWord r)) := by
  intro r
  induction r with
  | nil => intro i; simpa [takeWord] using boundaryFrom_self [] i
  | cons c rest ih =>
    intro i
    by_cases hw : isWordChar c = true
    · rw [show takeWord (c :: rest) = c :: takeWord rest from by simp [takeWord, hw]]
      rw [byteLen_cons]
      apply boundaryFrom_cons
      rw [show i + (c.utf8Size + byteLen (takeWord rest)) =
        (i + c.utf8Size) + byteLen (takeWord rest) from by omega]
      exact ih _
    · rw [show takeWord (c :: rest) = [] from by simp [takeWord, hw]]
      simpa using boundaryFrom_self (c :: rest) i

/-! ### The dispatch of `Lexer::next` -/

/-- The facts `dispatch_spec` establishes about a token produced at
offset `i` from current suffix `su` in a source of byte length `len`:
its `start` is the cursor, its kind is neither `End` nor `Hashtag`, it
strictly advances the cursor, an `Invalid` token runs to `len`, and its
end is again a boundary (or the end of input). -/
def TokOk (su : List Char) (i len : Nat) (t : Token) : Prop :=
  t.start = i ∧ t.kind ≠ .End ∧ t.kind ≠ .Hashtag ∧ i < t.endPos ∧
  (t.kind = .Invalid → t.endPos = len) ∧
  (t.endPos = len ∨ BoundaryFrom su i t.endPos)

theorem tokOk_single (k : TokenKind) (c : Char) (r : List Char) (i len : Nat)
    (hc : c.utf8Size = 1) (hkE : k ≠ .End) (hkH : k ≠ .Hashtag) (hkI : k ≠ .Invalid) :
    TokOk (c :: r) i len (Token.new k i (i + 1)) :=
  ⟨rfl, hkE, hkH, by show i < i + 1; omega, fun h => absurd h hkI,
    Or.inr (boundaryFrom_one c hc r i)⟩

theorem tokOk_invalid (su : List Char) (i len : Nat) (h : i < len) :
    TokOk su i len (Token.new .Invalid i len) :=
  ⟨rfl, fun h2 => TokenKind.noConfusion h2, fun h2 => TokenKind.noConfusion h2, h,
    fun _ => rfl, Or.inl rfl⟩

theorem fromWhitespace_tokOk (c : Char) (r : List Char) (i len : Nat)
    (hw : isWhiteChar c = true) : TokOk (c :: r) i len (fromWhitespace (c :: r) i) :=
  ⟨rfl, fun h => TokenKind.noConfusion h, fun h => TokenKind.noConfusion h,
    whitespaceEnd_lt c r i hw, fun h => TokenKind.noConfusion h,
    Or.inr (whitespaceEnd_boundary (c :: r) i)⟩

theorem fromDash_tokOk (r : List Char) (i len : Nat) : TokOk ('-' :: r) i len (fromDash r i) := by
  unfold fromDash
  by_cases hh : r.head? = some '>'
  · rw [if_pos hh]
    rcases r with _ | ⟨d, r2⟩
    · simp at hh
    · simp at hh
      subst hh
      exact ⟨rfl, fun h => TokenKind.noConfusion h, fun h => TokenKind.noConfusion h,
        by show i < i + 1 + 1; omega, fun h => TokenKind.noConfusion h,
        Or.inr (boundaryFrom_two '-' '>' (by decide) (by decide) r2 i)⟩
  · rw [if_neg hh]
    exact ⟨rfl, fun h => TokenKind.noConfusion h, fun h => TokenKind.noConfusion h,
      by show i < i + 1; omega, fun h => TokenKind.noConfusion h,
      Or.inr (boundaryFrom_one '-' (by decide) r i)⟩

theorem fromEquals_tokOk (r : List Char) (i len : Nat) :
    TokOk ('=' :: r) i len (fromEquals r i) := by
  unfold fromEquals
  by_cases hh : r.head? = some '>'
  · rw [if_pos hh]
    rcases r with _ | ⟨d, r2⟩
    · simp at hh
    · simp at hh
      subst hh
      exact ⟨rfl, fun h => TokenKind.noConfusion h, fun h => TokenKind.noConfusion h,
        by show i < i + 1 + 1; omega, fun h => TokenKind.noConfusion h,
        Or.inr (boundaryFrom_two '=' '>' (by decide) (by decide) r2 i)⟩
  · rw [if_neg hh]
    by_cases he : r.head? = some '='
    · rw [if_pos he]
      rcases r with _ | ⟨d, r2⟩
      · simp at he
      · simp at he
        subst he
        exact ⟨rfl, fun h => TokenKind.noConfusion h, fun h => TokenKind.noConfusion h,
          by show i < i + 1 + 1; omega, fun h => TokenKind.noConfusion h,
          Or.inr (boundaryFrom_two '=' '=' (by decide) (by decide) r2 i)⟩
    · rw [if_neg he]
      exact ⟨rfl, fun h => TokenKind.noConfusion h, fun h => TokenKind.noConfusion h,
        by show i < i + 1; omega, fun h => TokenKind.noConfusion h,
        Or.inr (boundaryFrom_one '=' (by decide) r i)⟩

theorem fromPlus_tokOk (r : List Char) (i len : Nat) : TokOk ('+' :: r) i len (fromPlus r i) := by
  unfold fromPlus
  by_cases hh : r.head? = some '+'
  · rw [if_pos hh]
    rcases r with _ | ⟨d, r2⟩
    · simp at hh
    · simp at hh
      subst hh
      exact ⟨rfl, fun h => TokenKind.noConfusion h, fun h => TokenKind.noConfusion h,
        by show i < i + 1 + 1; omega, fun h => TokenKind.noConfusion h,
        Or.inr (boundaryFrom_two '+' '+' (by decide) (by decide) r2 i)⟩
  · rw [if_neg hh]
    exact ⟨rfl, fun h => TokenKind.noConfusion h, fun h => TokenKind.noConfusion h,
      by show i < i + 1; omega, fun h => TokenKind.noConfusion h,
      Or.inr (boundaryFrom_one '+' (by decide) r i)⟩

theorem fromColon_tokOk (r : List Char) (i len : Nat) :
    TokOk (':' :: r) i len (fromColon r i) := by
  unfold fromColon
  by_cases hh : r.head? = some ':'
  · rw [if_pos hh]
    rcases r with _ | ⟨d, r2⟩
    · simp at hh
    · simp at hh
      subst hh
      exact ⟨rfl, fun h => TokenKind.noConfusion h, fun h => TokenKind.noConfusion h,
        by show i < i + 1 + 1; omega, fun h => TokenKind.noConfusion h,
        Or.inr (boundaryFrom_two ':' ':' (by decide) (by decide) r2 i)⟩
  · rw [if_neg hh]
    exact ⟨rfl, fun h => TokenKind.noConfusion h, fun h => TokenKind.noConfusion h,
      by show i < i + 1; omega, fun h => TokenKind.noConfusion h,
      Or.inr (boundaryFrom_one ':' (by decide) r i)⟩

theorem fromSlash_tokOk (r : List Char) (i len : Nat)
    (hlen : i + byteLen ('/' :: r) = len) : TokOk ('/' :: r) i len (fromSlash r i len) := by
  unfold fromSlash
  by_cases h1 : r.head? = some '/'
  · rw [if_pos h1]
    rcases r with _ | ⟨d, r2⟩
    · simp at h1
    · simp at h1
      subst h1
      simp only [List.tail_cons]
      have hle := (lineCommentEnd_boundary r2 (i + 1 + 1)).le
      exact ⟨rfl, fun h => TokenKind.noConfusion h, fun h => TokenKind.noConfusion h,
        by show i < lineCommentEnd r2 (i + 1 + 1); omega, fun h => TokenKind.noConfusion h,
        Or.inr (boundaryFrom_ascii '/' (by decide) _ i _
          (boundaryFrom_ascii '/' (by decide) _ (i + 1) _
            (lineCommentEnd_boundary r2 (i + 1 + 1))))⟩
  · rw [if_neg h1]
    by_cases h2 : r.head? = some '*'
    · rw [if_pos h2]
      rcases r with _ | ⟨d, r2⟩
      · simp at h2
      · simp at h2
        subst h2
        simp only [List.tail_cons]
        cases hbc : blockCommentEnd r2 (i + 1 + 1) with
        | none =>
          have p1 := Char.utf8Size_pos '/'
          have p2 := Char.utf8Size_pos '*'
          rw [byteLen_cons, byteLen_cons] at hlen
          exact ⟨rfl, fun h => TokenKind.noConfusion h, fun h => TokenKind.noConfusion h,
            by show i < len; omega, fun _ => rfl, Or.inl rfl⟩
        | some e =>
          obtain ⟨hle, hb⟩ := blockCommentEnd_spec r2 (i + 1 + 1) e hbc
          exact ⟨rfl, fun h => TokenKind.noConfusion h, fun h => TokenKind.noConfusion h,
            by show i < e; omega, fun h => TokenKind.noConfusion h,
            Or.inr (boundaryFrom_ascii '/' (by decide) _ i _
              (boundaryFrom_ascii '*' (by decide) _ (i + 1) _ hb))⟩
    · rw [if_neg h2]
      exact ⟨rfl, fun h => TokenKind.noConfusion h, fun h => TokenKind.noConfusion h,
        by show i < i + 1; omega, fun h => TokenKind.noConfusion h,
        Or.inr (boundaryFrom_one '/' (by decide) r i)⟩

theorem fromSingleQuote_tokOk (r : List Char) (i len : Nat)
    (hlen : i + byteLen (squote :: r) = len) :
    TokOk (squote :: r) i len (fromSingleQuote r i len) := by
  have hq1 : squote.utf8Size = 1 := by decide
  have hilen : i < len := by rw [byteLen_cons, hq1] at hlen; omega
  rcases r with _ | ⟨c, r2⟩
  · exact ⟨rfl, fun h => TokenKind.noConfusion h, fun h => TokenKind.noConfusion h, hilen,
      fun _ => rfl, Or.inl rfl⟩
  · show TokOk _ i len
      (if c = squote then Token.new .Invalid i len
       else if r2.head? = some squote then Token.new .Char i (i + 1 + c.utf8Size + 1)
       else Token.new .Invalid i len)
    by_cases hc : c = squote
    · rw [if_pos hc]
      exact ⟨rfl, fun h => TokenKind.noConfusion h, fun h => TokenKind.noConfusion h, hilen,
        fun _ => rfl, Or.inl rfl⟩
    · rw [if_neg hc]
      by_cases hh : r2.head? = some squote
      · rw [if_pos hh]
        rcases r2 with _ | ⟨d, r3⟩
        · simp at hh
        · simp at hh
          subst hh
          have hcp := c.utf8Size_pos
          exact ⟨rfl, fun h => TokenKind.noConfusion h, fun h => TokenKind.noConfusion h,
            by show i < i + 1 + c.utf8Size + 1; omega, fun h => TokenKind.noConfusion h,
            Or.inr (boundaryFrom_ascii squote hq1 _ i _
              (boundaryFrom_cons c _ (i + 1) _
                (boundaryFrom_ascii squote hq1 r3 (i + 1 + c.utf8Size) _
                  (boundaryFrom_self r3 (i + 1 + c.utf8Size + 1)))))⟩
      · rw [if_neg hh]
        exact ⟨rfl, fun h => TokenKind.noConfusion h, fun h => TokenKind.noConfusion h, hilen,
          fun _ => rfl, Or.inl rfl⟩

theorem fromQuote_tokOk (r : List Char) (i len : Nat)
    (hlen : i + byteLen (dquote :: r) = len) :
    TokOk (dquote :: r) i len (fromQuote r i len) := by
  have hq1 : dquote.utf8Size = 1 := by decide
  have hilen : i < len := by rw [byteLen_cons, hq1] at hlen; omega
  unfold fromQuote
  cases hse : stringEnd r (i + 1) with
  | none =>
    exact ⟨rfl, fun h => TokenKind.noConfusion h, fun h => TokenKind.noConfusion h, hilen,
      fun _ => rfl, Or.inl rfl⟩
  | some e =>
    obtain ⟨hlt, hb⟩ := stringEnd_spec r (i + 1) e hse
    exact ⟨rfl, fun h => TokenKind.noConfusion h, fun h => TokenKind.noConfusion h,
      by show i < e; omega, fun h => TokenKind.noConfusion h,
      Or.inr (boundaryFrom_ascii dquote hq1 r i e hb)⟩

theorem fromDigit_tokOk (c : Char) (r : List Char) (i len : Nat)
    (hd : isDigitChar c = true) (hlen : i + byteLen (c :: r) = len) :
    TokOk (c :: r) i len (fromDigit r i len) := by
  have hc1 : c.utf8Size = 1 := utf8Size_one_of_digit c hd
  have hilen : i < len := by rw [byteLen_cons, hc1] at hlen; omega
  unfold fromDigit
  cases hdl : digitLoop r (i + 1) none with
  | invalid =>
    exact ⟨rfl, fun h => TokenKind.noConfusion h, fun h => TokenKind.noConfusion h, hilen,
      fun _ => rfl, Or.inl rfl⟩
  | ok e d =>
    obtain ⟨hle, hb⟩ := digitLoop_spec r (i + 1) none e d hdl
    have hbd : BoundaryFrom (c :: r) i e := boundaryFrom_ascii c hc1 r i e hb
    cases d with
    | some j =>
      show TokOk (c :: r) i len
        (if j = e then Token.new .Invalid i len else Token.new .Float i e)
      by_cases hj : j = e
      · rw [if_pos hj]
        exact ⟨rfl, fun h => TokenKind.noConfusion h, fun h => TokenKind.noConfusion h, hilen,
          fun _ => rfl, Or.inl rfl⟩
      · rw [if_neg hj]
        exact ⟨rfl, fun h => TokenKind.noConfusion h, fun h => TokenKind.noConfusion h,
          by show i < e; omega, fun h => TokenKind.noConfusion h, Or.inr hbd⟩
    | none =>
      exact ⟨rfl, fun h => TokenKind.noConfusion h, fun h => TokenKind.noConfusion h,
        by show i < e; omega, fun h => TokenKind.noConfusion h, Or.inr hbd⟩

theorem keywordKind_ne (w : List Char) :
    keywordKind w ≠ .End ∧ keywordKind w ≠ .Hashtag ∧ keywordKind w ≠ .Invalid := by
  unfold keywordKind
  split_ifs <;>
    exact ⟨fun h => TokenKind.noConfusion h, fun h => TokenKind.noConfusion h,
      fun h => TokenKind.noConfusion h⟩

theorem takeWord_cons_of_word (c : Char) (rest : List Char) (hw : isWordChar c = true) :
    takeWord (c :: rest) = c :: takeWord rest := by
  simp [takeWord, hw]

theorem fromLetter_tokOk (c : Char) (r : List Char) (i len : Nat)
    (hw : isWordChar c = true) : TokOk (c :: r) i len (fromLetter (c :: r) i) := by
  obtain ⟨k1, k2, k3⟩ := keywordKind_ne (takeWord (c :: r))
  have hc1 := utf8Size_one_of_word c hw
  refine ⟨rfl, k1, k2, ?_, fun h => absurd h k3, Or.inr (takeWord_boundary (c :: r) i)⟩
  show i < i + byteLen (takeWord (c :: r))
  rw [takeWord_cons_of_word c r hw, byteLen_cons]
  omega

theorem dispatch_spec (c : Char) (r : List Char) (i len : Nat)
    (hlen : i + byteLen (c :: r) = len) :
    TokOk (c :: r) i len (dispatch c r i len) := by
  have hpos := c.utf8Size_pos
  have hilen : i < len := by rw [byteLen_cons] at hlen; omega
  unfold dispatch
  by_cases h1 : c = '\n'
  · rw [if_pos h1]; subst h1
    exact tokOk_single _ _ r i len (by decide) (by decide) (by decide) (by decide)
  rw [if_neg h1]
  by_cases h2 : c = '@'
  · rw [if_pos h2]; subst h2
    exact tokOk_single _ _ r i len (by decide) (by decide) (by decide) (by decide)
  rw [if_neg h2]
  by_cases h3 : c = ','
  · rw [if_pos h3]; subst h3
    exact tokOk_single _ _ r i len (by decide) (by decide) (by decide) (by decide)
  rw [if_neg h3]
  by_cases h4 : c = '*'
  · rw [if_pos h4]; subst h4
    exact tokOk_single _ _ r i len (by decide) (by decide) (by decide) (by decide)
  rw [if_neg h4]
  by_cases h5 : c = '('
  · rw [if_pos h5]; subst h5
    exact tokOk_single _ _ r i len (by decide) (by decide) (by decide) (by decide)
  rw [if_neg h5]
  by_cases h6 : c = ')'
  · rw [if_pos h6]; subst h6
    exact tokOk_single _ _ r i len (by decide) (by decide) (by decide) (by decide)
  rw [if_neg h6]
  by_cases h7 : c = '['
  · rw [if_pos h7]; subst h7
    exact tokOk_single _ _ r i len (by decide) (by decide) (by decide) (by decide)
  rw [if_neg h7]
  by_cases h8 : c = ']'
  · rw [if_pos h8]; subst h8
    exact tokOk_single _ _ r i len (by decide) (by decide) (by decide) (by decide)
  rw [if_neg h8]
  by_cases h9 : c = curlyL
  · rw [if_pos h9]; subst h9
    exact tokOk_single _ _ r i len (by decide) (by decide) (by decide) (by decide)
  rw [if_neg h9]
  by_cases h10 : c = curlyR
  · rw [if_pos h10]; subst h10
    exact tokOk_single _ _ r i len (by decide) (by decide) (by decide) (by decide)
  rw [if_neg h10]
  by_cases h11 : c = '.'
  · rw [if_pos h11]; subst h11
    exact tokOk_single _ _ r i len (by decide) (by decide) (by decide) (by decide)
  rw [if_neg h11]
  by_cases h12 : isWhiteChar c = true
  · rw [if_pos h12]
    exact fromWhitespace_tokOk c r i len h12
  rw [if_neg h12]
  by_cases h13 : c = '-'
  · rw [if_pos h13]; subst h13
    exact fromDash_tokOk r i len
  rw [if_neg h13]
  by_cases h14 : c = '='
  · rw [if_pos h14]; subst h14
    exact fromEquals_tokOk r i len
  rw [if_neg h14]
  by_cases h15 : c = '+'
  · rw [if_pos h15]; subst h15
    exact fromPlus_tokOk r i len
  rw [if_neg h15]
  by_cases h16 : c = '/'
  · rw [if_pos h16]; subst h16
    exact fromSlash_tokOk r i len hlen
  rw [if_neg h16]
  by_cases h17 : c = squote
  · rw [if_pos h17]; subst h17
    exact fromSingleQuote_tokOk r i len hlen
  rw [if_neg h17]
  by_cases h18 : c = dquote
  · rw [if_pos h18]; subst h18
    exact fromQuote_tokOk r i len hlen
  rw [if_neg h18]
  by_cases h19 : c = ':'
  · rw [if_pos h19]; subst h19
    exact fromColon_tokOk r i len
  rw [if_neg h19]
  by_cases h20 : isDigitChar c = true
  · rw [if_pos h20]
    exact fromDigit_tokOk c r i len h20 hlen
  rw [if_neg h20]
  by_cases h21 : isWordChar c = true
  · rw [if_pos h21]
    exact fromLetter_tokOk c r i len h21
  rw [if_neg h21]
  exact tokOk_invalid _ i len hilen

/-! ### The boundary invariant along the token stream -/

/-- The scanner invariant: the cursor sits on a scalar-value boundary
of the input, so the Rust `peek_char` slice cannot panic. -/
def Inv (l : Lexer) : Prop := ∃ r, suffixAt l.string l.index = some r

theorem next_string (l : Lexer) : (l.next).2.string = l.string := by
  unfold Lexer.next
  split <;> rfl

theorem next_index (l : Lexer) : (l.next).2.index = (l.next).1.endPos := by
  unfold Lexer.next
  split <;> rfl

theorem next_at_end (l : Lexer) (h : suffixAt l.string l.index = some []) :
    l.next = (Token.new .End l.index l.index, l) := by
  unfold Lexer.next
  rw [h]

theorem next_dispatch (l : Lexer) (c : Char) (r : List Char)
    (h : suffixAt l.string l.index = some (c :: r)) :
    l.next = (dispatch c r l.index (byteLen l.string),
      ⟨l.string, (dispatch c r l.index (byteLen l.string)).endPos⟩) := by
  unfold Lexer.next
  rw [h]

/-- Collected facts about one `next` call from a state satisfying the
boundary invariant. -/
theorem next_spec (l : Lexer) (h : Inv l) :
    (l.next).1.start = l.index ∧
    (l.next).1.kind ≠ .Hashtag ∧
    ((l.next).1.kind = .End →
       l.index = byteLen l.string ∧ (l.next).1 = Token.new .End l.index l.index ∧
       (l.next).2 = l) ∧
    ((l.next).1.kind ≠ .End → l.index < (l.next).1.endPos) ∧
    ((l.next).1.kind = .Invalid → (l.next).1.endPos = byteLen l.string) ∧
    Inv (l.next).2 := by
  obtain ⟨r0, hr⟩ := h
  rcases r0 with _ | ⟨c, r⟩
  · rw [next_at_end l hr]
    have hi := suffixAt_some_byteLen l.string l.index [] hr
    rw [byteLen_nil] at hi
    refine ⟨rfl, fun h2 => TokenKind.noConfusion h2, ?_, ?_, ?_, ⟨[], hr⟩⟩
    · intro _; exact ⟨by omega, rfl, rfl⟩
    · intro hne; exact absurd rfl hne
    · intro h2; exact TokenKind.noConfusion h2
  · have hd := dispatch_spec c r l.index (byteLen l.string) (suffixAt_some_byteLen _ _ _ hr)
    obtain ⟨hstart, hkE, hkH, hlt, hInv, hbd⟩ := hd
    rw [next_dispatch l c r hr]
    refine ⟨hstart, hkH, fun h2 => absurd h2 hkE, fun _ => hlt, hInv, ?_⟩
    rcases hbd with hlen | ⟨j, r2, he, hs⟩
    · refine ⟨[], ?_⟩
      show suffixAt l.string (dispatch c r l.index (byteLen l.string)).endPos = some []
      rw [hlen]
      exact suffixAt_byteLen l.string
    · refine ⟨r2, ?_⟩
      show suffixAt l.string (dispatch c r l.index (byteLen l.string)).endPos = some r2
      rw [he]
      exact suffixAt_trans _ _ _ _ _ hr hs

theorem lexState_string (s : List Char) (n : Nat) : (lexState s n).string = s := by
  induction n with
  | zero => rfl
  | succ n ih =>
    show ((lexState s n).next).2.string = s
    rw [next_string]
    exact ih

theorem lexState_inv (s : List Char) (n : Nat) : Inv (lexState s n) := by
  induction n with
  | zero => exact ⟨s, suffixAt_zero s⟩
  | succ n ih => exact (next_spec _ ih).2.2.2.2.2

theorem lexState_index_succ (s : List Char) (n : Nat) :
    (lexState s (n + 1)).index = (tokenAt s n).endPos :=
  next_index _

theorem tokenAt_start (s : List Char) (n : Nat) :
    (tokenAt s n).start = (lexState s n).index :=
  (next_spec _ (lexState_inv s n)).1

theorem tokenAt_dispatch (s : List Char) (n : Nat) (c : Char) (r : List Char)
    (h : suffixAt s (lexState s n).index = some (c :: r)) :
    tokenAt s n = dispatch c r (lexState s n).index (byteLen s) := by
  have h2 : suffixAt (lexState s n).string (lexState s n).index = some (c :: r) := by
    rw [lexState_string]; exact h
  show ((lexState s n).next).1 = _
  rw [next_dispatch _ c r h2, lexState_string]

theorem state_stable_after_end (s : List Char) (n : Nat) (h : (tokenAt s n).kind = .End) :
    ∀ m, n ≤ m → lexState s m = lexState s n := by
  intro m hm
  induction hm with
  | refl => rfl
  | @step k hk ih =>
    show ((lexState s k).next).2 = lexState s n
    rw [ih]
    exact ((next_spec _ (lexState_inv s n)).2.2.1 h).2.2

theorem token_stable_after_end (s : List Char) (n : Nat) (h : (tokenAt s n).kind = .End) :
    ∀ m, n ≤ m → tokenAt s m = tokenAt s n := by
  intro m hm
  show ((lexState s m).next).1 = _
  rw [state_stable_after_end s n h m hm]
  rfl

theorem end_or_index_ge (s : List Char) :
    ∀ n, (∃ k, k ≤ n ∧ (tokenAt s k).kind = .End) ∨ n ≤ (lexState s n).index := by
  intro n
  induction n with
  | zero => right; omega
  | succ n ih =>
    rcases ih with ⟨k, hk, hke⟩ | hge
    · left; exact ⟨k, by omega, hke⟩
    by_cases he : (tokenAt s n).kind = .End
    · left; exact ⟨n, by omega, he⟩
    right
    have hlt : (lexState s n).index < (tokenAt s n).endPos :=
      (next_spec _ (lexState_inv s n)).2.2.2.1 he
    have hidx : (lexState s (n + 1)).index = (tokenAt s n).endPos := next_index _
    omega

/-- Scanning always reaches an `End` token within `byteLen s + 1` calls. -/
theorem reaches_end (s : List Char) :
    ∃ n, n ≤ byteLen s ∧ (tokenAt s n).kind = .End := by
  rcases end_or_index_ge s (byteLen s) with ⟨k, hk, hke⟩ | hge
  · exact ⟨k, hk, hke⟩
  obtain ⟨r, hr⟩ := lexState_inv s (byteLen s)
  rw [lexState_string] at hr
  have h1 := suffixAt_some_byteLen s _ _ hr
  have hr0 : byteLen r = 0 := by omega
  have hrnil := byteLen_eq_zero hr0
  subst hrnil
  refine ⟨byteLen s, le_refl _, ?_⟩
  have hx : suffixAt (lexState s (byteLen s)).string (lexState s (byteLen s)).index
      = some [] := by
    rw [lexState_string]; exact hr
  show ((lexState s (byteLen s)).next).1.kind = .End
  rw [next_at_end _ hx]
  rfl

/-! ### Claims C1, C2, C3, C4, C9, C10 -/

/-- C1: for any input containing no invalid construct (no call returns an
`Invalid` token), the spans of the successive tokens exactly tile
`[0, byteLen s)`: the first token starts at 0, each token starts where
the previous one ended, spans never go backwards, and the stream reaches
a first `End` token whose `start` and `end` both equal `byteLen s`. -/
theorem token_spans_tile (s : List Char) (hni : ∀ k, (tokenAt s k).kind ≠ .Invalid) :
    (tokenAt s 0).start = 0 ∧
    (∀ k, (tokenAt s (k + 1)).start = (tokenAt s k).endPos) ∧
    (∀ k, (tokenAt s k).start ≤ (tokenAt s k).endPos) ∧
    ∃ n, n ≤ byteLen s ∧ (tokenAt s n).kind = .End ∧
      (tokenAt s n).start = byteLen s ∧ (tokenAt s n).endPos = byteLen s ∧
      ∀ k, k < n → (tokenAt s k).kind ≠ .End := by
  refine ⟨?_, ?_, ?_, ?_⟩
  · rw [tokenAt_start]; rfl
  · intro k
    rw [tokenAt_start s (k + 1), lexState_index_succ]
  · intro k
    by_cases he : (tokenAt s k).kind = .End
    · have h3 := (next_spec _ (lexState_inv s k)).2.2.1 he
      have htok : tokenAt s k =
          Token.new .End (lexState s k).index (lexState s k).index := h3.2.1
      rw [htok]
      exact le_refl _
    · have h4 : (lexState s k).index < (tokenAt s k).endPos :=
        (next_spec _ (lexState_inv s k)).2.2.2.1 he
      rw [tokenAt_start]
      omega
  · obtain ⟨n0, hn0, hend⟩ := reaches_end s
    have hex : ∃ n, (tokenAt s n).kind = .End := ⟨n0, hend⟩
    have h3 := (next_spec _ (lexState_inv s (Nat.find hex))).2.2.1 (Nat.find_spec hex)
    have hidx : (lexState s (Nat.find hex)).index = byteLen s := by
      have := h3.1; rwa [lexState_string] at this
    have htok : tokenAt s (Nat.find hex) = Token.new .End
        (lexState s (Nat.find hex)).index (lexState s (Nat.find hex)).index := h3.2.1
    refine ⟨Nat.find hex, le_trans (Nat.find_min' hex hend) hn0, Nat.find_spec hex, ?_, ?_, ?_⟩
    · rw [tokenAt_start, hidx]
    · rw [htok]; exact hidx
    · intro k hk; exact Nat.find_min hex hk

theorem token_spans_tile_witness :
    (∀ k, (tokenAt ['a'] k).kind ≠ TokenKind.Invalid) ∧ (tokenAt ['a'] 0).start = 0 ∧
    (tokenAt ['a'] 1).start = (tokenAt ['a'] 0).endPos := by
  have hni : ∀ k, (tokenAt ['a'] k).kind ≠ TokenKind.Invalid := by
    intro k
    cases k with
    | zero => decide
    | succ m =>
      have hE : (tokenAt ['a'] 1).kind = TokenKind.End := by decide
      rw [token_stable_after_end ['a'] 1 hE (m + 1) (by omega)]
      decide
  exact ⟨hni, (token_spans_tile ['a'] hni).1, (token_spans_tile ['a'] hni).2.1 0⟩

/-- C2: whenever `next` returns an `Invalid` token, its `end` equals
`byteLen s`, the immediately following call returns `End` with
`start = end = byteLen s`, and every later call returns `End` as well —
no token other than `End` ever follows an `Invalid` token. -/
theorem invalid_absorbs_remainder (s : List Char) (n : Nat)
    (h : (tokenAt s n).kind = .Invalid) :
    (tokenAt s n).endPos = byteLen s ∧
    tokenAt s (n + 1) = Token.new .End (byteLen s) (byteLen s) ∧
    ∀ m, n < m → (tokenAt s m).kind = .End := by
  have hsp := next_spec _ (lexState_inv s n)
  have hend : (tokenAt s n).endPos = byteLen s := by
    have := hsp.2.2.2.2.1 h
    rwa [lexState_string] at this
  have hidx : (lexState s (n + 1)).index = byteLen s := by
    rw [lexState_index_succ, hend]
  have hx : suffixAt (lexState s (n + 1)).string (lexState s (n + 1)).index = some [] := by
    rw [lexState_string, hidx]
    exact suffixAt_byteLen s
  have htok : tokenAt s (n + 1) = Token.new .End (byteLen s) (byteLen s) := by
    show ((lexState s (n + 1)).next).1 = _
    rw [next_at_end _ hx, hidx]
  refine ⟨hend, htok, ?_⟩
  intro m hm
  have hE : (tokenAt s (n + 1)).kind = .End := by rw [htok]; rfl
  rw [token_stable_after_end s (n + 1) hE m (by omega), htok]
  rfl

theorem invalid_absorbs_remainder_witness :
    (tokenAt ['#'] 0).kind = TokenKind.Invalid ∧
    (tokenAt ['#'] 0).endPos = byteLen ['#'] ∧
    tokenAt ['#'] 1 = Token.new TokenKind.End (byteLen ['#']) (byteLen ['#']) := by
  have h := invalid_absorbs_remainder ['#'] 0 (by decide)
  exact ⟨by decide, h.1, h.2.1⟩

/-- C3: scanning always terminates — every token other than `End`
strictly advances the cursor (`start < end`), and starting from
`Lexer.new s` an `End` token appears within the first `byteLen s + 1`
calls (some `n ≤ byteLen s`). -/
theorem scanning_terminates (s : List Char) :
    (∀ n, (tokenAt s n).kind ≠ .End → (tokenAt s n).start < (tokenAt s n).endPos) ∧
    ∃ n, n ≤ byteLen s ∧ (tokenAt s n).kind = .End := by
  refine ⟨?_, reaches_end s⟩
  intro n hne
  have h4 : (lexState s n).index < (tokenAt s n).endPos :=
    (next_spec _ (lexState_inv s n)).2.2.2.1 hne
  rw [tokenAt_start]
  exact h4

theorem scanning_terminates_witness :
    (tokenAt ['a'] 0).start < (tokenAt ['a'] 0).endPos ∧
    ∃ n, n ≤ byteLen ['a'] ∧ (tokenAt ['a'] n).kind = TokenKind.End :=
  ⟨(scanning_terminates ['a']).1 0 (by decide), (scanning_terminates ['a']).2⟩

/-- C4: from every state reachable from `Lexer.new s`, the cursor lies
on a Unicode scalar-value boundary of the input with
`0 ≤ index ≤ byteLen s` (so `peek_char`'s slice and `next_char`'s
`unwrap` cannot panic), and the stored input is unchanged. -/
theorem cursor_boundary_invariant (s : List Char) (n : Nat) :
    (lexState s n).string = s ∧
    (∃ r, suffixAt s (lexState s n).index = some r) ∧
    (lexState s n).index ≤ byteLen s := by
  obtain ⟨r, hr⟩ := lexState_inv s n
  rw [lexState_string] at hr
  have h1 := suffixAt_some_byteLen s _ _ hr
  exact ⟨lexState_string s n, ⟨r, hr⟩, by omega⟩

theorem cursor_boundary_invariant_witness :
    (lexState ['a'] 1).string = ['a'] ∧
    (∃ r, suffixAt ['a'] (lexState ['a'] 1).index = some r) ∧
    (lexState ['a'] 1).index ≤ byteLen ['a'] :=
  cursor_boundary_invariant ['a'] 1

/-- C9: no reachable `next` call ever returns a `Hashtag` token — the
enum member exists but no dispatch arm produces it — and a `#` at the
cursor falls into the catch-all branch, yielding `Invalid` spanning to
end of input. -/
theorem hashtag_never_produced (s : List Char) (n : Nat) :
    (tokenAt s n).kind ≠ .Hashtag ∧
    (∀ r, suffixAt s (lexState s n).index = some ('#' :: r) →
       tokenAt s n = Token.new .Invalid (lexState s n).index (byteLen s)) := by
  refine ⟨(next_spec _ (lexState_inv s n)).2.1, ?_⟩
  intro r h
  rw [tokenAt_dispatch s n '#' r h]
  simp [dispatch, squote, dquote, curlyL, curlyR, isWhiteChar, isDigitChar, isWordChar]

theorem hashtag_never_produced_witness :
    (tokenAt ['#'] 0).kind ≠ TokenKind.Hashtag ∧
    tokenAt ['#'] 0 = Token.new TokenKind.Invalid 0 1 := by
  have h := hashtag_never_produced ['#'] 0
  exact ⟨h.1, (h.2 [] (by decide)).trans (by decide)⟩

/-- C10: once `next` returns `End`, every subsequent call returns the
very same `End` token, the cursor never advances again, and (scanning
from `Lexer.new s`) that span is `start = end = byteLen s`. -/
theorem end_idempotent (s : List Char) (n : Nat) (h : (tokenAt s n).kind = .End) :
    (tokenAt s n).start = byteLen s ∧ (tokenAt s n).endPos = byteLen s ∧
    (∀ m, n ≤ m → tokenAt s m = tokenAt s n) ∧
    (∀ m, n ≤ m → (lexState s m).index = (lexState s n).index) := by
  have h3 := (next_spec _ (lexState_inv s n)).2.2.1 h
  have hidx : (lexState s n).index = byteLen s := by
    have := h3.1; rwa [lexState_string] at this
  have htok : tokenAt s n =
      Token.new .End (lexState s n).index (lexState s n).index := h3.2.1
  refine ⟨?_, ?_, token_stable_after_end s n h, ?_⟩
  · rw [htok]; exact hidx
  · rw [htok]; exact hidx
  · intro m hm; rw [state_stable_after_end s n h m hm]

theorem end_idempotent_witness :
    (tokenAt ([] : List Char) 0).start = byteLen [] ∧
    (tokenAt ([] : List Char) 0).endPos = byteLen [] ∧
    tokenAt ([] : List Char) 1 = tokenAt ([] : List Char) 0 := by
  have h := end_idempotent [] 0 (by decide)
  exact ⟨h.1, h.2.1, h.2.2.1 1 (by omega)⟩

/-! ### Claims C7 and C8 -/

/-- C8: two-character operators are decided by one character of
lookahead after the consumed first character: `-` gives `ThinArrow`
(width 2, consuming the `>`) exactly when followed by `>` and `Minus`
(width 1) otherwise; `=` gives `ThickArrow` before `>`, `DoubleEquals`
before `=`, else `Equals`; `+` gives `DoublePlus` before `+`, else
`Plus`; `:` gives `DoubleColon` before `:`, else `Colon`. -/
theorem two_char_operator_spec (s : List Char) (n : Nat) :
    (∀ r, suffixAt s (lexState s n).index = some ('-' :: r) →
       tokenAt s n = if r.head? = some '>'
         then Token.new .ThinArrow (lexState s n).index ((lexState s n).index + 2)
         else Token.new .Minus (lexState s n).index ((lexState s n).index + 1)) ∧
    (∀ r, suffixAt s (lexState s n).index = some ('=' :: r) →
       tokenAt s n = if r.head? = some '>'
         then Token.new .ThickArrow (lexState s n).index ((lexState s n).index + 2)
         else if r.head? = some '='
         then Token.new .DoubleEquals (lexState s n).index ((lexState s n).index + 2)
         else Token.new .Equals (lexState s n).index ((lexState s n).index + 1)) ∧
    (∀ r, suffixAt s (lexState s n).index = some ('+' :: r) →
       tokenAt s n = if r.head? = some '+'
         then Token.new .DoublePlus (lexState s n).index ((lexState s n).index + 2)
         else Token.new .Plus (lexState s n).index ((lexState s n).index + 1)) ∧
    (∀ r, suffixAt s (lexState s n).index = some (':' :: r) →
       tokenAt s n = if r.head? = some ':'
         then Token.new .DoubleColon (lexState s n).index ((lexState s n).index + 2)
         else Token.new .Colon (lexState s n).index ((lexState s n).index + 1)) := by
  refine ⟨?_, ?_, ?_, ?_⟩
  · intro r h
    rw [tokenAt_dispatch s n '-' r h]
    by_cases hh : r.head? = some '>' <;>
      simp [dispatch, squote, dquote, curlyL, curlyR, isWhiteChar, fromDash, hh]
  · intro r h
    rw [tokenAt_dispatch s n '=' r h]
    by_cases hh : r.head? = some '>'
    · simp [dispatch, squote, dquote, curlyL, curlyR, isWhiteChar, fromEquals, hh]
    · by_cases he : r.head? = some '=' <;>
        simp [dispatch, squote, dquote, curlyL, curlyR, isWhiteChar, fromEquals, hh, he]
  · intro r h
    rw [tokenAt_dispatch s n '+' r h]
    by_cases hh : r.head? = some '+' <;>
      simp [dispatch, squote, dquote, curlyL, curlyR, isWhiteChar, fromPlus, hh]
  · intro r h
    rw [tokenAt_dispatch s n ':' r h]
    by_cases hh : r.head? = some ':' <;>
      simp [dispatch, squote, dquote, curlyL, curlyR, isWhiteChar, fromColon, hh]

theorem two_char_operator_spec_witness :
    tokenAt ['-', '>'] 0 = Token.new TokenKind.ThinArrow 0 2 := by
  have h := (two_char_operator_spec ['-', '>'] 0).1 ['>'] (by decide)
  exact h.trans (by decide)

/-- C7: a single quote at the cursor yields a `Char` token exactly when
followed by one character other than a quote and then a closing quote
(span covering all three characters); an immediate closing quote, end
of input, or a missing closing quote after the one middle character
yields `Invalid` from the opening quote to end of input. -/
theorem char_literal_spec (s : List Char) (n : Nat) :
    ∀ r, suffixAt s (lexState s n).index = some (squote :: r) →
      ((r = [] → tokenAt s n = Token.new .Invalid (lexState s n).index (byteLen s)) ∧
       (∀ r2, r = squote :: r2 →
          tokenAt s n = Token.new .Invalid (lexState s n).index (byteLen s)) ∧
       (∀ c r2, r = c :: r2 → c ≠ squote → r2.head? = some squote →
          tokenAt s n = Token.new .Char (lexState s n).index
            ((lexState s n).index + 1 + c.utf8Size + 1)) ∧
       (∀ c r2, r = c :: r2 → c ≠ squote → r2.head? ≠ some squote →
          tokenAt s n = Token.new .Invalid (lexState s n).index (byteLen s))) := by
  intro r h
  rw [tokenAt_dispatch s n squote r h]
  have hd : dispatch squote r (lexState s n).index (byteLen s) =
      fromSingleQuote r (lexState s n).index (byteLen s) := by
    simp [dispatch, squote, dquote, curlyL, curlyR, isWhiteChar]
  rw [hd]
  refine ⟨?_, ?_, ?_, ?_⟩
  · rintro rfl; rfl
  · rintro r2 rfl
    simp [fromSingleQuote]
  · rintro c r2 rfl hc hh
    simp [fromSingleQuote, hc, hh]
  · rintro c r2 rfl hc hh
    simp [fromSingleQuote, hc, hh]

theorem char_literal_spec_witness :
    tokenAt [squote, 'a', 'b', squote] 0 = Token.new TokenKind.Invalid 0 4 := by
  have h := char_literal_spec [squote, 'a', 'b', squote] 0 ['a', 'b', squote] (by decide)
  exact (h.2.2.2 'a' ['b', squote] rfl (by decide) (by decide)).trans (by decide)

/-! ### Claim C5 -/

/-- The `//` loop stops exactly at the first newline (or end of input):
its final offset adds the byte length of the maximal newline-free
prefix. -/
theorem lineCommentEnd_eq (r : List Char) :
    ∀ i, lineCommentEnd r i = i + byteLen (r.takeWhile (fun c => c != '\n')) := by
  induction r with
  | nil => intro i; simp [lineCommentEnd]
  | cons c rest ih =>
    intro i
    by_cases hn : c = '\n'
    · subst hn
      rw [show lineCommentEnd ('\n' :: rest) i = i from by simp [lineCommentEnd]]
      rw [List.takeWhile_cons_of_neg (by simp)]
      simp
    · rw [show lineCommentEnd (c :: rest) i = lineCommentEnd rest (i + c.utf8Size) from by
        simp [lineCommentEnd, hn]]
      rw [List.takeWhile_cons_of_pos (by simp [hn]), ih, byteLen_cons]
      omega

/-- The `/*` loop fails exactly when no `*/` occurs in the remainder. -/
theorem blockCommentEnd_none_iff (r : List Char) :
    ∀ i, blockCommentEnd r i = none ↔ ∀ pre post, r ≠ pre ++ '*' :: '/' :: post := by
  induction r with
  | nil =>
    intro i
    constructor
    · intro _ pre post heq
      cases pre <;> simp at heq
    · intro _
      rfl
  | cons c rest ih =>
    intro i
    by_cases hb : c = '*' ∧ rest.head? = some '/'
    · obtain ⟨hc, hh⟩ := hb
      subst hc
      rcases rest with _ | ⟨d, rest2⟩
      · simp at hh
      simp at hh
      subst hh
      constructor
      · intro h
        rw [show blockCommentEnd ('*' :: '/' :: rest2) i = some (i + 1 + 1) from by
          simp [blockCommentEnd]; decide] at h
        cases h
      · intro hall
        exact absurd rfl (hall [] rest2)
    · have hstep : blockCommentEnd (c :: rest) i = blockCommentEnd rest (i + c.utf8Size) := by
        simp only [blockCommentEnd]
        rw [if_neg]
        intro hx
        simp at hx
        exact hb ⟨hx.1, hx.2⟩
      rw [hstep, ih (i + c.utf8Size)]
      constructor
      · intro hall pre post heq
        rcases pre with _ | ⟨p, pre2⟩
        · injection heq with h1 h2
          subst h1
          exact hb ⟨rfl, by rw [h2]; rfl⟩
        · injection heq with h1 h2
          exact absurd h2 (hall pre2 post)
      · intro hall pre post heq
        exact hall (c :: pre) post (by rw [List.cons_append, heq])

/-- A successful `/*` scan stops at the first `*/`: the end offset is
the byte length of the shortest prefix before a `*/`, plus two for the
closing characters. -/
theorem blockCommentEnd_some_spec (r : List Char) :
    ∀ i e, blockCommentEnd r i = some e →
      ∃ pre post, r = pre ++ '*' :: '/' :: post ∧
        (∀ pre2 post2, r = pre2 ++ '*' :: '/' :: post2 → pre.length ≤ pre2.length) ∧
        e = i + byteLen pre + 2 := by
  induction r with
  | nil => intro i e h; simp [blockCommentEnd] at h
  | cons c rest ih =>
    intro i e h
    by_cases hb : c = '*' ∧ rest.head? = some '/'
    · obtain ⟨hc, hh⟩ := hb
      subst hc
      rcases rest with _ | ⟨d, rest2⟩
      · simp at hh
      simp at hh
      subst hh
      rw [show blockCommentEnd ('*' :: '/' :: rest2) i = some (i + 1 + 1) from by
        simp [blockCommentEnd]; decide] at h
      cases h
      refine ⟨[], rest2, rfl, fun pre2 post2 _ => Nat.zero_le _, by simp⟩
    · have hstep : blockCommentEnd (c :: rest) i = blockCommentEnd rest (i + c.utf8Size) := by
        simp only [blockCommentEnd]
        rw [if_neg]
        intro hx
        simp at hx
        exact hb ⟨hx.1, hx.2⟩
      rw [hstep] at h
      obtain ⟨pre, post, heq, hmin, he⟩ := ih (i + c.utf8Size) e h
      refine ⟨c :: pre, post, by rw [List.cons_append, heq], ?_, ?_⟩
      · intro pre2 post2 heq2
        rcases pre2 with _ | ⟨p, pre3⟩
        · injection heq2 with h1 h2
          subst h1
          exact absurd ⟨rfl, by rw [h2]; rfl⟩ hb
        · injection heq2 with h1 h2
          have := hmin pre3 post2 h2
          simp only [List.length_cons]
          omega
      · rw [he, byteLen_cons]
        omega

/-- C5: with `/` at the cursor — a second `/` yields a `Comment` to the
end of line or input (excluding the newline); a `*` yields a `Comment`
through the closing `/` of the first `*/` when one exists and otherwise
an `Invalid` token to end of input; anything else yields a
one-character `Div`. -/
theorem slash_dispatch_spec (s : List Char) (n : Nat) :
    ∀ r, suffixAt s (lexState s n).index = some ('/' :: r) →
      ((∀ r2, r = '/' :: r2 →
         tokenAt s n = Token.new .Comment (lexState s n).index
           ((lexState s n).index + 2 + byteLen (r2.takeWhile (fun c => c != '\n')))) ∧
       (∀ r2, r = '*' :: r2 →
         ((∃ pre post, r2 = pre ++ '*' :: '/' :: post) →
            ∃ pre post, r2 = pre ++ '*' :: '/' :: post ∧
              (∀ pre2 post2, r2 = pre2 ++ '*' :: '/' :: post2 → pre.length ≤ pre2.length) ∧
              tokenAt s n = Token.new .Comment (lexState s n).index
                ((lexState s n).index + 2 + byteLen pre + 2)) ∧
         ((∀ pre post, r2 ≠ pre ++ '*' :: '/' :: post) →
            tokenAt s n = Token.new .Invalid (lexState s n).index (byteLen s))) ∧
       (r.head? ≠ some '/' → r.head? ≠ some '*' →
         tokenAt s n = Token.new .Div (lexState s n).index ((lexState s n).index + 1))) := by
  intro r h
  rw [tokenAt_dispatch s n '/' r h]
  have hd : dispatch '/' r (lexState s n).index (byteLen s) =
      fromSlash r (lexState s n).index (byteLen s) := by
    simp [dispatch, squote, dquote, curlyL, curlyR, isWhiteChar]
  rw [hd]
  generalize (lexState s n).index = i
  refine ⟨?_, ?_, ?_⟩
  · rintro r2 rfl
    rw [show fromSlash ('/' :: r2) i (byteLen s) =
      Token.new .Comment i (lineCommentEnd r2 (i + 1 + 1)) from by simp [fromSlash]]
    rw [lineCommentEnd_eq]
  · rintro r2 rfl
    constructor
    · rintro ⟨pre0, post0, hdec⟩
      cases hbc : blockCommentEnd r2 (i + 1 + 1) with
      | none =>
        exact absurd hdec (((blockCommentEnd_none_iff r2 _).1 hbc) pre0 post0)
      | some e =>
        obtain ⟨pre, post, heq, hmin, he⟩ := blockCommentEnd_some_spec r2 _ e hbc
        refine ⟨pre, post, heq, hmin, ?_⟩
        rw [show fromSlash ('*' :: r2) i (byteLen s) = Token.new .Comment i e from by
          simp [fromSlash, hbc]]
        rw [he]
    · intro hnone
      have hbc : blockCommentEnd r2 (i + 1 + 1) = none :=
        (blockCommentEnd_none_iff r2 _).2 hnone
      rw [show fromSlash ('*' :: r2) i (byteLen s) = Token.new .Invalid i (byteLen s) from by
        simp [fromSlash, hbc]]
  · intro h1 h2
    rw [show fromSlash r i (byteLen s) = Token.new .Div i (i + 1) from by
      simp [fromSlash, h1, h2]]

theorem slash_dispatch_spec_witness :
    tokenAt ['/', '/', 'x'] 0 = Token.new TokenKind.Comment 0 3 ∧
    tokenAt ['/', '*', 'a'] 0 = Token.new TokenKind.Invalid 0 3 := by
  have h1 := (slash_dispatch_spec ['/', '/', 'x'] 0 ['/', 'x'] (by decide)).1 ['x'] rfl
  have h2 := (slash_dispatch_spec ['/', '*', 'a'] 0 ['*', 'a'] (by decide)).2.1 ['a'] rfl
  have h3 := h2.2 (by
    intro pre post heq
    rcases pre with _ | ⟨p, pre2⟩
    · simp at heq
    · rcases pre2 with _ | ⟨q, pre3⟩ <;> simp at heq)
  exact ⟨h1.trans (by decide), h3.trans (by decide)⟩

/-! ### Claim C6 -/

/-- The class of characters the `from_digit` loop keeps consuming:
digits, underscores, and the decimal point. -/
def isNumContChar (c : Char) : Bool :=
  isDigitChar c || c = '_' || c = '.'

theorem digitLoop_some_no_dot (r : List Char) :
    ∀ i j, (r.takeWhile isNumContChar).count '.' = 0 →
      digitLoop r i (some j) = .ok (i + byteLen (r.takeWhile isNumContChar)) (some j) := by
  induction r with
  | nil => intro i j _; simp [digitLoop]
  | cons c rest ih =>
    intro i j hcount
    by_cases h1 : (isDigitChar c || c = '_') = true
    · have hnum : isNumContChar c = true := by
        unfold isNumContChar
        rw [h1]
        rfl
      have hcdot : c ≠ '.' := by rintro rfl; revert h1; decide
      rw [List.takeWhile_cons_of_pos hnum] at hcount ⊢
      rw [List.count_cons_of_ne (Ne.symm hcdot)] at hcount
      rw [show digitLoop (c :: rest) i (some j) = digitLoop rest (i + c.utf8Size) (some j)
        from by simp [digitLoop, h1]]
      rw [ih _ _ hcount, byteLen_cons]
      rw [show i + (c.utf8Size + byteLen (rest.takeWhile isNumContChar)) =
        i + c.utf8Size + byteLen (rest.takeWhile isNumContChar) from by omega]
    · by_cases h2 : c = '.'
      · subst h2
        rw [List.takeWhile_cons_of_pos (by decide)] at hcount
        rw [List.count_cons_self] at hcount
        omega
      · have hnum : isNumContChar c = false := by
          unfold isNumContChar
          rw [show (isDigitChar c || decide (c = '_')) = false from by
            revert h1; cases (isDigitChar c || decide (c = '_')) <;> simp]
          rw [show decide (c = '.') = false from by simp [h2]]
          rfl
        rw [List.takeWhile_cons_of_neg (by rw [hnum]; decide)]
        rw [show digitLoop (c :: rest) i (some j) = .ok i (some j) from by
          simp [digitLoop, h1, h2]]
        simp

theorem digitLoop_some_dot (r : List Char) :
    ∀ i j, (r.takeWhile isNumContChar).count '.' ≠ 0 →
      digitLoop r i (some j) = .invalid := by
  induction r with
  | nil => intro i j hcount; simp at hcount
  | cons c rest ih =>
    intro i j hcount
    by_cases h1 : (isDigitChar c || c = '_') = true
    · have hnum : isNumContChar c = true := by
        unfold isNumContChar
        rw [h1]
        rfl
      have hcdot : c ≠ '.' := by rintro rfl; revert h1; decide
      rw [List.takeWhile_cons_of_pos hnum, List.count_cons_of_ne (Ne.symm hcdot)] at hcount
      rw [show digitLoop (c :: rest) i (some j) = digitLoop rest (i + c.utf8Size) (some j)
        from by simp [digitLoop, h1]]
      exact ih _ _ hcount
    · by_cases h2 : c = '.'
      · subst h2
        simp [digitLoop, isDigitChar]
      · have hnum : isNumContChar c = false := by
          unfold isNumContChar
          rw [show (isDigitChar c || decide (c = '_')) = false from by
            revert h1; cases (isDigitChar c || decide (c = '_')) <;> simp]
          rw [show decide (c = '.') = false from by simp [h2]]
          rfl
        rw [List.takeWhile_cons_of_neg (by rw [hnum]; decide)] at hcount
        simp at hcount

/-- Full characterization of the `from_digit` loop started with no dot
seen, in terms of the maximal digit/underscore/dot run `w`: no dot in
`w` ends at `i + byteLen w` with no dot recorded; exactly one dot ends
there with the recorded dot offset just past that dot; two or more dots
abort with `invalid`. -/
theorem digitLoop_none_spec (r : List Char) :
    ∀ i, ((r.takeWhile isNumContChar).count '.' = 0 →
         digitLoop r i none = .ok (i + byteLen (r.takeWhile isNumContChar)) none) ∧
      (∀ w1 w2, r.takeWhile isNumContChar = w1 ++ '.' :: w2 →
         w1.count '.' = 0 → w2.count '.' = 0 →
         digitLoop r i none = .ok (i + byteLen (r.takeWhile isNumContChar))
           (some (i + byteLen w1 + 1))) ∧
      (2 ≤ (r.takeWhile isNumContChar).count '.' → digitLoop r i none = .invalid) := by
  induction r with
  | nil =>
    intro i
    refine ⟨fun _ => by simp [digitLoop], ?_, ?_⟩
    · intro w1 w2 heq
      rw [List.takeWhile_nil] at heq
      cases w1 <;> simp at heq
    · intro h2
      simp at h2
  | cons c rest ih =>
    intro i
    by_cases h1 : (isDigitChar c || c = '_') = true
    · have hnum : isNumContChar c = true := by
        unfold isNumContChar
        rw [h1]
        rfl
      have hcdot : c ≠ '.' := by rintro rfl; revert h1; decide
      have hstep : digitLoop (c :: rest) i none = digitLoop rest (i + c.utf8Size) none := by
        simp [digitLoop, h1]
      refine ⟨?_, ?_, ?_⟩
      · intro hcount
        rw [List.takeWhile_cons_of_pos hnum, List.count_cons_of_ne (Ne.symm hcdot)] at hcount
        rw [hstep, (ih (i + c.utf8Size)).1 hcount, List.takeWhile_cons_of_pos hnum,
          byteLen_cons]
        rw [show i + (c.utf8Size + byteLen (rest.takeWhile isNumContChar)) =
          i + c.utf8Size + byteLen (rest.takeWhile isNumContChar) from by omega]
      · intro w1 w2 heq hw1 hw2
        rw [List.takeWhile_cons_of_pos hnum] at heq
        rcases w1 with _ | ⟨p, w1x⟩
        · injection heq with hc2 hr2
          exact absurd hc2 hcdot
        · injection heq with hc2 hr2
          subst hc2
          rw [List.count_cons_of_ne (Ne.symm hcdot)] at hw1
          rw [hstep, (ih (i + c.utf8Size)).2.1 w1x w2 hr2 hw1 hw2,
            List.takeWhile_cons_of_pos hnum, byteLen_cons, byteLen_cons]
          rw [show i + (c.utf8Size + byteLen (rest.takeWhile isNumContChar)) =
            i + c.utf8Size + byteLen (rest.takeWhile isNumContChar) from by omega]
          rw [show i + (c.utf8Size + byteLen w1x) + 1 =
            i + c.utf8Size + byteLen w1x + 1 from by omega]
      · intro hcount
        rw [List.takeWhile_cons_of_pos hnum, List.count_cons_of_ne (Ne.symm hcdot)] at hcount
        rw [hstep]
        exact (ih (i + c.utf8Size)).2.2 hcount
    · by_cases h2 : c = '.'
      · subst h2
        have hnum : isNumContChar '.' = true := by decide
        have hstep : digitLoop ('.' :: rest) i none = digitLoop rest (i + 1) (some (i + 1)) := by
          simp [digitLoop, isDigitChar]
        refine ⟨?_, ?_, ?_⟩
        · intro hcount
          rw [List.takeWhile_cons_of_pos hnum, List.count_cons_self] at hcount
          omega
        · intro w1 w2 heq hw1 hw2
          rw [List.takeWhile_cons_of_pos hnum] at heq
          rcases w1 with _ | ⟨p, w1x⟩
          · injection heq with hc2 hr2
            subst hr2
            rw [hstep, digitLoop_some_no_dot rest (i + 1) (i + 1) hw2,
              List.takeWhile_cons_of_pos hnum, byteLen_cons]
            rw [show ('.' : Char).utf8Size = 1 from by decide]
            rw [show i + (1 + byteLen (rest.takeWhile isNumContChar)) =
              i + 1 + byteLen (rest.takeWhile isNumContChar) from by omega]
            simp
          · injection heq with hc2 hr2
            subst hc2
            rw [List.count_cons_self] at hw1
            omega
        · intro hcount
          rw [List.takeWhile_cons_of_pos hnum, List.count_cons_self] at hcount
          rw [hstep]
          exact digitLoop_some_dot rest (i + 1) (i + 1) (by omega)
      · have hnum : isNumContChar c = false := by
          unfold isNumContChar
          rw [show (isDigitChar c || decide (c = '_')) = false from by
            revert h1; cases (isDigitChar c || decide (c = '_')) <;> simp]
          rw [show decide (c = '.') = false from by simp [h2]]
          rfl
        have hstep : digitLoop (c :: rest) i none = .ok i none := by
          simp [digitLoop, h1, h2]
        rw [List.takeWhile_cons_of_neg (by rw [hnum]; decide)]
        refine ⟨fun _ => by rw [hstep]; simp, ?_, ?_⟩
        · intro w1 w2 heq
          cases w1 <;> simp at heq
        · intro h3
          simp at h3

theorem count_one_split (a : Char) :
    ∀ (l : List Char), l.count a = 1 →
      ∃ l1 l2, l = l1 ++ a :: l2 ∧ l1.count a = 0 ∧ l2.count a = 0 := by
  intro l
  induction l with
  | nil => intro h; simp at h
  | cons c rest ih =>
    intro h
    by_cases hc : c = a
    · subst hc
      rw [List.count_cons_self] at h
      exact ⟨[], rest, rfl, by simp, by omega⟩
    · rw [List.count_cons_of_ne (Ne.symm hc)] at h
      obtain ⟨l1, l2, heq, h1, h2⟩ := ih h
      exact ⟨c :: l1, l2, by rw [List.cons_append, heq],
        by rw [List.count_cons_of_ne (Ne.symm hc)]; exact h1, h2⟩

/-- The dispatch of `next` at a decimal digit always selects
`from_digit`. -/
theorem dispatch_digit (c : Char) (r : List Char) (i len : Nat) (h : isDigitChar c = true) :
    dispatch c r i len = fromDigit r i len := by
  have hn : ∀ (d : Char), isDigitChar d = false → c ≠ d := by
    intro d hd hcd
    subst hcd
    rw [h] at hd
    cases hd
  have hw : ¬ isWhiteChar c = true := by
    intro hw
    have h3 : (c = ' ' ∨ c = '\r') ∨ c = '\t' := by simpa [isWhiteChar] using hw
    rcases h3 with (rfl | rfl) | rfl <;> revert h <;> decide
  unfold dispatch
  rw [if_neg (hn '\n' (by decide)), if_neg (hn '@' (by decide)), if_neg (hn ',' (by decide)),
    if_neg (hn '*' (by decide)), if_neg (hn '(' (by decide)), if_neg (hn ')' (by decide)),
    if_neg (hn '[' (by decide)), if_neg (hn ']' (by decide)), if_neg (hn curlyL (by decide)),
    if_neg (hn curlyR (by decide)), if_neg (hn '.' (by decide)), if_neg hw,
    if_neg (hn '-' (by decide)), if_neg (hn '=' (by decide)), if_neg (hn '+' (by decide)),
    if_neg (hn '/' (by decide)), if_neg (hn squote (by decide)),
    if_neg (hn dquote (by decide)), if_neg (hn ':' (by decide)), if_pos h]


theorem fromDigit_eq_of_invalid (r : List Char) (start len : Nat)
    (h : digitLoop r (start + 1) none = .invalid) :
    fromDigit r start len = Token.new .Invalid start len := by
  unfold fromDigit
  rw [h]

theorem fromDigit_eq_of_ok_none (r : List Char) (start len e : Nat)
    (h : digitLoop r (start + 1) none = .ok e none) :
    fromDigit r start len = Token.new .Int start e := by
  unfold fromDigit
  rw [h]

theorem fromDigit_eq_of_ok_some (r : List Char) (start len e j : Nat)
    (h : digitLoop r (start + 1) none = .ok e (some j)) :
    fromDigit r start len =
      if j = e then Token.new .Invalid start len else Token.new .Float start e := by
  unfold fromDigit
  rw [h]

/-- C6: with a digit at the cursor, the token covers the maximal run
`w` of digits, underscores and dots: no dot in `w` gives `Int` over
`w`; a second dot gives `Invalid` to end of input; exactly one dot in
trailing position gives `Invalid` to end of input; exactly one dot
followed by more run characters gives `Float` over `w`. -/
theorem digit_literal_spec (s : List Char) (n : Nat) :
    ∀ c r, suffixAt s (lexState s n).index = some (c :: r) → isDigitChar c = true →
      ((((c :: r).takeWhile isNumContChar).count '.' = 0 →
         tokenAt s n = Token.new .Int (lexState s n).index
           ((lexState s n).index + byteLen ((c :: r).takeWhile isNumContChar))) ∧
       (2 ≤ ((c :: r).takeWhile isNumContChar).count '.' →
         tokenAt s n = Token.new .Invalid (lexState s n).index (byteLen s)) ∧
       (((c :: r).takeWhile isNumContChar).count '.' = 1 →
         ((c :: r).takeWhile isNumContChar).getLast? = some '.' →
         tokenAt s n = Token.new .Invalid (lexState s n).index (byteLen s)) ∧
       (((c :: r).takeWhile isNumContChar).count '.' = 1 →
         ((c :: r).takeWhile isNumContChar).getLast? ≠ some '.' →
         tokenAt s n = Token.new .Float (lexState s n).index
           ((lexState s n).index + byteLen ((c :: r).takeWhile isNumContChar)))) := by
  intro c r h hdig
  rw [tokenAt_dispatch s n c r h, dispatch_digit c r _ _ hdig]
  generalize (lexState s n).index = i
  have hc1 : c.utf8Size = 1 := utf8Size_one_of_digit c hdig
  have hnum : isNumContChar c = true := by
    unfold isNumContChar
    rw [show (isDigitChar c || decide (c = '_')) = true from by rw [hdig]; rfl]
    rfl
  have hcdot : c ≠ '.' := by rintro rfl; revert hdig; decide
  have hw : (c :: r).takeWhile isNumContChar = c :: r.takeWhile isNumContChar :=
    List.takeWhile_cons_of_pos hnum
  rw [hw, List.count_cons_of_ne (Ne.symm hcdot)]
  refine ⟨?_, ?_, ?_, ?_⟩
  · intro hcount
    rw [fromDigit_eq_of_ok_none r i (byteLen s) _ ((digitLoop_none_spec r (i + 1)).1 hcount)]
    rw [byteLen_cons, hc1]
    rw [show i + (1 + byteLen (r.takeWhile isNumContChar)) =
      i + 1 + byteLen (r.takeWhile isNumContChar) from by omega]
  · intro hcount
    rw [fromDigit_eq_of_invalid r i (byteLen s) ((digitLoop_none_spec r (i + 1)).2.2 hcount)]
  · intro hcount hlast
    obtain ⟨w1, w2, heq, hw1, hw2⟩ := count_one_split '.' _ hcount
    have hw2nil : w2 = [] := by
      by_contra hne
      rw [heq, show c :: (w1 ++ '.' :: w2) = (c :: w1 ++ ['.']) ++ w2 from by simp,
        List.getLast?_append] at hlast
      cases h2l : w2.getLast? with
      | none => exact hne (List.getLast?_eq_none_iff.1 h2l)
      | some a =>
        rw [h2l] at hlast
        have ha : a ∈ w2 := List.mem_of_getLast?_eq_some h2l
        have : a = '.' := by simpa using hlast
        subst this
        exact absurd (List.count_eq_zero.1 hw2) (fun h4 => h4 ha)
    subst hw2nil
    rw [fromDigit_eq_of_ok_some r i (byteLen s) _ _
      ((digitLoop_none_spec r (i + 1)).2.1 w1 [] heq hw1 (by simp))]
    have hbe : byteLen (r.takeWhile isNumContChar) = byteLen w1 + 1 := by
      rw [heq, byteLen_append, byteLen_cons, byteLen_nil,
        show ('.' : Char).utf8Size = 1 from by decide]
    rw [if_pos (by omega)]
  · intro hcount hlast
    obtain ⟨w1, w2, heq, hw1, hw2⟩ := count_one_split '.' _ hcount
    have hw2ne : w2 ≠ [] := by
      rintro rfl
      exact hlast (by
        rw [heq, show c :: (w1 ++ ['.']) = (c :: w1) ++ ['.'] from by simp,
          List.getLast?_concat])
    rw [fromDigit_eq_of_ok_some r i (byteLen s) _ _
      ((digitLoop_none_spec r (i + 1)).2.1 w1 w2 heq hw1 hw2)]
    have hbw2 : byteLen w2 ≠ 0 := fun h0 => hw2ne (byteLen_eq_zero h0)
    have hbe : byteLen (r.takeWhile isNumContChar) = byteLen w1 + 1 + byteLen w2 := by
      rw [heq, byteLen_append, byteLen_cons, show ('.' : Char).utf8Size = 1 from by decide]
      omega
    rw [if_neg (by omega), byteLen_cons, hc1]
    rw [show i + (1 + byteLen (r.takeWhile isNumContChar)) =
      i + 1 + byteLen (r.takeWhile isNumContChar) from by omega]

theorem digit_literal_spec_witness :
    tokenAt ['1', '.', '2', '.', '3'] 0 = Token.new TokenKind.Invalid 0 5 := by
  have h := (digit_literal_spec ['1', '.', '2', '.', '3'] 0 '1' ['.', '2', '.', '3']
    (by decide) (by decide)).2.1 (by decide)
  exact h.trans (by decide)

end Unnamed
